import Mathlib



/-!
Verification of the integer-point enumerator (`isl_scan.c`) and the interned
identifier registry (`isl_id.c`) of the bundled isl library.

The enumerator drives an external simplex tableau through a narrow interface
(`isl_tab_min`, `isl_tab_add_valid_eq`, `isl_tab_snap`, `isl_tab_rollback`,
`isl_tab_get_sample_value`).  That tableau code is not part of the sources
under verification, so it is modelled from the specification: after the
(external, unimodular) basis reduction, the state of the tableau during the
sweep is determined by the list `p` of basis coordinates fixed so far, and the
two LP calls at a level report the integer range of the next basis coordinate
over the fiber above `p`.  All counting and emission logic of `isl_scan.c`
itself is translated directly.

Machine integers do not occur: `isl_int` is arbitrary-precision (GMP), so it
is embedded as `Int`, and refcounts/hashes as `Nat` (hash arithmetic is
explicitly reduced mod 2^32 as the C code computes in `uint32_t`).
-/

/-- Result of one LP minimization (`enum isl_lp_result` restricted to the
four outcomes `isl_basic_set_scan` inspects). -/
inductive LpResult where
  | ok (v : Int)
  | empty
  | unbounded
  | err
deriving DecidableEq

/-- Modelled from the spec: the external tableau/basis-reduction pair, as seen
through the calls `isl_basic_set_scan` makes.  `d` is the total dimension of
the basic set.  For a list `p` of already-fixed leading basis coordinates,
`lpMin p` is the result of `isl_tab_min` on objective `B->row[1+level]`
(the integral minimum, rounded up, of the next basis coordinate over the
fiber above `p`), and `lpMax p` is the result of the second, negated,
`isl_tab_min` call after undoing the negations (the integral maximum,
rounded down).  Snapshot/rollback of the tableau is captured by the fact that
the oracles depend only on `p`. -/
structure BSetModel where
  d : Nat
  lpMin : List Int → LpResult
  lpMax : List Int → LpResult

/-- The list of integers `m, m+1, ..., M` (empty when `M < m`): the values the
sweep gives to one basis coordinate at one level. -/
def rangeList (m M : Int) : List Int :=
  (List.range (M + 1 - m).toNat).map (fun i : Nat => m + (i : Int))

/-- One `init == 1` range computation of `isl_basic_set_scan` (lines 147-165):
run the two LP calls for the current level; `error` if either reports
`isl_lp_error` or `isl_lp_unbounded` (the `goto error` paths), `none` if
either reports `isl_lp_empty` (the `empty` flag), otherwise the range
`(min->el[level], max->el[level])`. -/
def stepRange (S : BSetModel) (p : List Int) : Except Unit (Option (Int × Int)) :=
  match S.lpMin p with
  | .err => .error ()
  | .unbounded => .error ()
  | .empty =>
    match S.lpMax p with
    | .err => .error ()
    | .unbounded => .error ()
    | _ => .ok none
  | .ok m =>
    match S.lpMax p with
    | .err => .error ()
    | .unbounded => .error ()
    | .empty => .ok none
    | .ok M => .ok (some (m, M))

/-- Iterate a body over the successive values of one level, aborting (and
normalizing the status to `-1`, as every failing branch of the C loop exits
through `goto error`) as soon as the body reports a negative status. -/
def scanVals (f : σ → Int → σ × Int) : σ → List Int → σ × Int
  | s, [] => (s, 0)
  | s, v :: vs =>
    let r := f s v
    if r.2 < 0 then (r.1, -1) else scanVals f r.1 vs

/-- The DFS of `isl_basic_set_scan` (lines 145-202) below a fixed coordinate
list `p`, with `n` levels remaining.  `emit` is `callback->add` (receiving the
sample in homogeneous coordinates, leading `1`); `shortcut` is `some
increment_range` exactly when `callback->add == increment_counter` (the
pointer comparison on line 177), and `none` for any other callback.
At `n = 0` every coordinate is fixed and `add_solution` passes the tableau
sample to the callback.  At an inner level: compute the range (`init == 1`);
an LP error aborts with `-1`; an empty or exhausted range backtracks
(line 169); at the innermost level with the counting callback the whole range
is consumed by one `increment_range` call whose failure aborts (lines
177-187); otherwise each value of the range is fixed by an equality and the
next level is scanned. -/
def scanLevel (S : BSetModel) (emit : σ → List Int → σ × Int)
    (shortcut : Option (σ → Int → Int → σ × Int)) :
    Nat → List Int → σ → σ × Int
  | 0, p, s => emit s (1 :: p)
  | n+1, p, s =>
    match stepRange S p with
    | .error _ => (s, -1)
    | .ok none => (s, 0)
    | .ok (some (m, M)) =>
      if M < m then (s, 0)
      else
        match n, shortcut with
        | 0, some rng =>
          let r := rng s m M
          if r.2 = 0 then (r.1, 0) else (r.1, -1)
        | _, _ =>
          scanVals (fun s v => scanLevel S emit shortcut n (p ++ [v]) s) s
            (rangeList m M)

/-- `isl_basic_set_scan` (lines 100-219): dimension `0` is handled by
`scan_0D` (lines 66-80), which emits the single homogeneous sample `[1]`
and returns the callback status without touching any tableau; otherwise the
sweep starts at `level = 0, init = 1` with no coordinate fixed. -/
def isl_basic_set_scan (S : BSetModel) (emit : σ → List Int → σ × Int)
    (shortcut : Option (σ → Int → Int → σ × Int)) (s : σ) : σ × Int :=
  if S.d = 0 then emit s [1]
  else scanLevel S emit shortcut S.d [] s

/-- `struct isl_counter` (lines 17-21): running `count` and bound `max`
(`max = 0` meaning unlimited), both arbitrary-precision integers. -/
structure isl_counter where
  count : Int
  max : Int
deriving DecidableEq

/-- `increment_counter` (lines 23-35): add one to the count, release the
sample (the sample argument is not retained), continue (`0`) if the bound is
zero or not yet reached, else stop (`-1`). -/
def increment_counter (cnt : isl_counter) (_sample : List Int) :
    isl_counter × Int :=
  let cnt := { cnt with count := cnt.count + 1 }
  if cnt.max = 0 ∨ cnt.count < cnt.max then (cnt, 0) else (cnt, -1)

/-- `increment_range` (lines 37-49): add `max - min + 1` to the count;
continue (`0`) if the bound is zero or not yet reached, else clamp the count
to the bound and stop (`-1`).  No sample is materialized. -/
def increment_range (cnt : isl_counter) (mn mx : Int) : isl_counter × Int :=
  let cnt := { cnt with count := cnt.count + mx - mn + 1 }
  if cnt.max = 0 ∨ cnt.count < cnt.max then (cnt, 0)
  else ({ cnt with count := cnt.max }, -1)

/-- A generic collecting callback: appends every sample it receives and
always continues.  (Its `add` is not `increment_counter`, so a scan driven by
it never takes the counting path.) -/
def collectCb (acc : List (List Int)) (sample : List Int) :
    List (List Int) × Int :=
  (acc ++ [sample], 0)

/-- `isl_basic_set_scan` with the collecting callback, started on an empty
accumulator: the samples delivered, in order, and the scan status. -/
def scanCollect (S : BSetModel) : List (List Int) × Int :=
  isl_basic_set_scan S collectCb none []

/-- `isl_basic_set_scan` driven by the counter callback (so the range
shortcut of line 177 applies), from a given starting counter. -/
def scanCount (S : BSetModel) (count max : Int) : isl_counter × Int :=
  isl_basic_set_scan S increment_counter (some increment_range)
    { count := count, max := max }

/-- `isl_basic_set_count_upto` (lines 246-271): scan with a fresh counter;
if the scan failed and the count is still strictly below the bound, propagate
the failure (`none`, `*count` untouched); otherwise succeed with the
accumulated count. -/
def isl_basic_set_count_upto (S : BSetModel) (max : Int) : Option Int :=
  let r := scanCount S 0 max
  if r.2 < 0 ∧ r.1.count < r.1.max then none else some r.1.count

/-- Modelled from the spec: `isl_set_scan` (lines 221-244) first normalizes
the set by `isl_set_cow`, `isl_set_make_disjoint` and `isl_set_compute_divs`
(all external to the sources under verification); a set is therefore taken to
be the resulting list of pairwise-disjoint basic sets, scanned in stored
order, aborting as soon as one basic-set scan fails. -/
def isl_set_scan (set : List BSetModel) (emit : σ → List Int → σ × Int)
    (shortcut : Option (σ → Int → Int → σ × Int)) (s : σ) : σ × Int :=
  match set with
  | [] => (s, 0)
  | bset :: rest =>
    let r := isl_basic_set_scan bset emit shortcut s
    if r.2 < 0 then (r.1, -1) else isl_set_scan rest emit shortcut r.1

/-- `isl_set_scan` driven by the counter callback, from a given starting
counter. -/
def setScanCount (set : List BSetModel) (count max : Int) : isl_counter × Int :=
  isl_set_scan set increment_counter (some increment_range)
    { count := count, max := max }

/-- `isl_set_count_upto` (lines 273-297): same failure policy as
`isl_basic_set_count_upto`, over a whole set. -/
def isl_set_count_upto (set : List BSetModel) (max : Int) : Option Int :=
  let r := setScanCount set 0 max
  if r.2 < 0 ∧ r.1.count < r.1.max then none else some r.1.count

/-- `isl_set_count` (lines 299-304): count with `ctx->zero` as the bound,
i.e. unlimited. -/
def isl_set_count (set : List BSetModel) : Option Int :=
  isl_set_count_upto set 0

/-- The points of the search tree below `p` with `n` levels remaining: the
denotation of the basic set in reduced-basis coordinates.  A vector belongs
to it exactly when every level reports a proper range and the vector's
coordinate at that level lies inside it. -/
def pointsFrom (S : BSetModel) : Nat → List Int → List (List Int)
  | 0, p => [p]
  | n+1, p =>
    match stepRange S p with
    | .ok (some (m, M)) =>
      (rangeList m M).flatMap (fun v => pointsFrom S n (p ++ [v]))
    | _ => []

/-- The integer points of the basic set, in reduced-basis coordinates. -/
def BSetModel.points (S : BSetModel) : List (List Int) :=
  pointsFrom S S.d []

/-- The total number of integer points of a (disjoint) union of basic
sets. -/
def setPointsCount (set : List BSetModel) : Nat :=
  (set.map (fun S => S.points.length)).sum

/-- A bounded, fault-free basic set: no LP call ever reports `unbounded` or
`error` (the caller of `isl_basic_set_scan` guarantees boundedness, and the
external tableau is assumed not to fault). -/
def BSetModel.Bounded (S : BSetModel) : Prop :=
  ∀ p : List Int, S.lpMin p ≠ .unbounded ∧ S.lpMin p ≠ .err ∧
    S.lpMax p ≠ .unbounded ∧ S.lpMax p ≠ .err

/-- A bounded one-dimensional model whose single level ranges over
`0, 1, 2`: three integer points. -/
def mdlRange02 : BSetModel :=
  { d := 1, lpMin := fun _ => .ok 0, lpMax := fun _ => .ok 2 }

/-- A one-dimensional model whose root-level LP faults. -/
def mdlErr : BSetModel :=
  { d := 1, lpMin := fun _ => .err, lpMax := fun _ => .err }

/-! ### Claim C7: LP faults abort the sweep -/

/-- `isl_lp_unbounded` and `isl_lp_error` are the two LP outcomes that send
`isl_basic_set_scan` to its error exit (lines 152-153 and 163-164). -/
def lpBad : LpResult → Bool
  | .unbounded => true
  | .err => true
  | _ => false

/-- A level whose range computation faults: one of its two LP calls reports
unbounded or error. -/
def levelBad (S : BSetModel) (p : List Int) : Bool :=
  lpBad (S.lpMin p) || lpBad (S.lpMax p)

/-- The prefixes of fixed coordinates the sweep can visit below `p` with `n`
levels remaining: `p` itself, and anything visitable below `p ++ [v]` for a
value `v` of a properly computed range at `p`. -/
def reachesB (S : BSetModel) : Nat → List Int → List Int → Bool
  | 0, p, q => p == q
  | n+1, p, q =>
    p == q ||
      match stepRange S p with
      | .ok (some (m, M)) => (rangeList m M).any (fun v => reachesB S n (p ++ [v]) q)
      | _ => false

/-- A two-dimensional model that is bounded at the root but unbounded in the
second coordinate: the inner LP faults. -/
def mdlUnb : BSetModel :=
  { d := 2,
    lpMin := fun p => if p.length = 0 then .ok 0 else .unbounded,
    lpMax := fun _ => .ok 1 }

/-!
### The interned identifier registry (`isl_id.c`)

The registry stores identifiers in the context's hash table `ctx->id_table`.
The hash table itself (`isl_hash_table_find`, `isl_hash_table_remove`) is
external to the sources under verification and is modelled from the spec as
an association list of `(address, identifier)` entries probed in order, where
the equality callback is invoked only on entries whose stored hash equals the
probe hash.  C strings are modelled as byte lists; `void *user` payloads as
natural numbers (their address value); identifier addresses as naturals
handed out by a counter, so that "same instance" is address equality.
`strcmp` applied to a null pointer has no defined result, so the equality
predicate returns an `Option Bool`, `none` standing for the undefined
outcome, which propagates to the operation that performed the probe.
-/

/-- A live identifier: `struct isl_id`'s `name` (null or an owned string),
`user` payload, refcount and precomputed hash.  The context back-reference
and the `free_user` finalizer play no role in the interning claims and are
omitted. -/
structure isl_id where
  name : Option (List Nat)
  user : Nat
  ref : Nat
  hash : Nat
deriving DecidableEq

/-- Modelled from the spec: `isl_hash_init()` — the fixed 32-bit FNV offset
basis seed (external `isl/hash.h`). -/
def isl_hash_init : Nat := 2166136261

/-- Modelled from the spec: `isl_hash_byte(h, b)` — multiply by the FNV
prime, xor in the byte, in 32-bit arithmetic (external `isl/hash.h`). -/
def isl_hash_byte (h b : Nat) : Nat :=
  ((h * 16777619) % 2 ^ 32) ^^^ (b % 2 ^ 32)

/-- Modelled from the spec: `isl_hash_string` folds the name's bytes. -/
def isl_hash_string (h : Nat) (s : List Nat) : Nat :=
  s.foldl isl_hash_byte h

/-- Modelled from the spec: `isl_hash_builtin` folds the raw bits of the
`user` pointer (eight bytes, little-endian). -/
def isl_hash_builtin (h : Nat) (user : Nat) : Nat :=
  (List.range 8).foldl (fun h i => isl_hash_byte h ((user / 2 ^ (8 * i)) % 256)) h

/-- The hash of an interning key: name bytes when a name is present, else
the user payload's bits — computed identically by `id_alloc` (lines 57-61)
for the stored hash and by `isl_id_alloc` (lines 93-97) for the probe
hash. -/
def idKeyHash (name : Option (List Nat)) (user : Nat) : Nat :=
  match name with
  | some s => isl_hash_string isl_hash_init s
  | none => isl_hash_builtin isl_hash_init user

/-- `struct isl_name_and_user` (lines 69-72): the lookup key. -/
structure isl_name_and_user where
  name : Option (List Nat)
  user : Nat
deriving DecidableEq

/-- `isl_id_has_name_and_user` (lines 74-85): different users compare
unequal; both names absent compare equal; otherwise the code calls
`strcmp(id->name, nu->name)` — which has no defined result when exactly one
of the two names is a null pointer (`none` in the model). -/
def isl_id_has_name_and_user (id : isl_id) (nu : isl_name_and_user) :
    Option Bool :=
  if id.user ≠ nu.user then some false
  else if id.name = none ∧ nu.name = none then some true
  else
    match id.name, nu.name with
    | some a, some b => some (decide (a = b))
    | _, _ => none

/-- The context, reduced to what the registry uses: the interning table
`ctx->id_table` (spec-modelled as an ordered association list) and the next
fresh address. -/
structure isl_ctx where
  id_table : List (Nat × isl_id)
  next : Nat
deriving DecidableEq

/-- Modelled from the spec: the probe of `isl_hash_table_find` — scan the
entries in order, calling the equality callback only on those whose stored
hash equals the probe hash; `none` = the callback hit its undefined case,
`some none` = no entry matches, `some (some e)` = `e` is the match. -/
def tableFind (table : List (Nat × isl_id)) (h : Nat) (nu : isl_name_and_user) :
    Option (Option (Nat × isl_id)) :=
  match table with
  | [] => some none
  | e :: rest =>
    if e.2.hash = h then
      match isl_id_has_name_and_user e.2 nu with
      | none => none
      | some true => some (some e)
      | some false => tableFind rest h nu
    else tableFind rest h nu

/-- `id_alloc` (lines 40-67): build a fresh identifier with refcount 1 and
the precomputed key hash.  (Allocation failure is handled by the caller
through the `allocOk` flag of `isl_id_alloc`.) -/
def id_alloc (name : Option (List Nat)) (user : Nat) : isl_id :=
  { name := name, user := user, ref := 1, hash := idKeyHash name user }

/-- Increment the refcount of the entry at `addr` (`isl_id_copy`,
lines 113-123, on a table entry). -/
def bumpRef (table : List (Nat × isl_id)) (addr : Nat) : List (Nat × isl_id) :=
  table.map (fun e => if e.1 = addr then (e.1, { e.2 with ref := e.2.ref + 1 }) else e)

/-- `isl_id_alloc` (lines 87-108): hash the key, probe the table with
`isl_id_has_name_and_user`; on a hit return the existing instance through
`isl_id_copy` (refcount incremented); on a miss create the identifier and
populate the reserved slot, or — when allocation fails (`allocOk = false`) —
vacate the reserved slot (`ctx->id_table.n--`), leaving the table unchanged,
and return null.  The outer `none` is the undefined outcome of comparing a
named and a nameless key with `strcmp`. -/
def isl_id_alloc (ctx : isl_ctx) (name : Option (List Nat)) (user : Nat)
    (allocOk : Bool) : Option (Option Nat × isl_ctx) :=
  let h := idKeyHash name user
  match tableFind ctx.id_table h ⟨name, user⟩ with
  | none => none
  | some (some e) => some (some e.1, { ctx with id_table := bumpRef ctx.id_table e.1 })
  | some none =>
    if allocOk then
      some (some ctx.next,
        { id_table := ctx.id_table ++ [(ctx.next, id_alloc name user)],
          next := ctx.next + 1 })
    else some (none, ctx)

/-- `isl_id_free` (lines 154-183) on a live identifier with address `addr`:
decrement the refcount; on reaching zero remove the entry from the table
(found by pointer equality `isl_id_eq`) and release it.  An address not in
the table corresponds to the sentinel or an invalid handle and changes
nothing. -/
def isl_id_free (ctx : isl_ctx) (addr : Nat) : isl_ctx :=
  match ctx.id_table.find? (fun e => e.1 == addr) with
  | none => ctx
  | some e =>
    if e.2.ref > 1 then
      { ctx with id_table :=
          ctx.id_table.map (fun e2 =>
            if e2.1 = addr then (e2.1, { e2.2 with ref := e2.2.ref - 1 }) else e2) }
    else
      { ctx with id_table := ctx.id_table.filter (fun e2 => e2.1 != addr) }

/-- The refcount of the identifier at `addr` (0 when absent). -/
def refOf (ctx : isl_ctx) (addr : Nat) : Nat :=
  match ctx.id_table.find? (fun e => e.1 == addr) with
  | none => 0
  | some e => e.2.ref

/-- Well-formedness of a context's interning table: addresses are distinct
and below the allocation counter, each stored hash is the hash of the stored
key, refcounts are live, and — the interning invariant — no two entries
share a `(name, user)` key. -/
def ctxWF (ctx : isl_ctx) : Prop :=
  (ctx.id_table.map Prod.fst).Nodup
  ∧ (∀ e ∈ ctx.id_table, e.1 < ctx.next)
  ∧ (∀ e ∈ ctx.id_table, e.2.hash = idKeyHash e.2.name e.2.user)
  ∧ (∀ e ∈ ctx.id_table, 1 ≤ e.2.ref)
  ∧ (∀ e1 ∈ ctx.id_table, ∀ e2 ∈ ctx.id_table,
      e1.2.name = e2.2.name → e1.2.user = e2.2.user → e1.1 = e2.1)

instance ctxWF_decidable (ctx : isl_ctx) : Decidable (ctxWF ctx) := by
  unfold ctxWF
  infer_instance

/-- The byte string `"x"`. -/
def nameX : Option (List Nat) := some [120]

/-- The byte string `"y"`. -/
def nameY : Option (List Nat) := some [121]

/-- The empty context. -/
def ctx0 : isl_ctx := { id_table := [], next := 0 }

/-- The context after interning `("x", 0)` into the empty context. -/
def ctxA : isl_ctx := { id_table := [(0, id_alloc nameX 0)], next := 1 }

/-- The context after further interning `("y", 0)`. -/
def ctxB : isl_ctx :=
  { id_table := [(0, id_alloc nameX 0), (1, id_alloc nameY 0)], next := 2 }

/-! ### Range list helpers -/

theorem length_rangeList (m M : Int) :
    (rangeList m M).length = (M + 1 - m).toNat := by
  rw [rangeList, List.length_map, List.length_range]

theorem mem_rangeList {m M v : Int} :
    v ∈ rangeList m M ↔ m ≤ v ∧ v ≤ M := by
  constructor
  · intro h
    rcases List.mem_map.mp h with ⟨i, hi, rfl⟩
    rw [List.mem_range] at hi
    omega
  · intro h
    refine List.mem_map.mpr ⟨(v - m).toNat, List.mem_range.mpr ?_, ?_⟩ <;> omega

/-! ### Claims C4 and C5: the two counter callbacks -/

/-- C4: for every counter state `(count, cap)` and integers `min ≤ max`,
`increment_range` adds `max - min + 1` to the count; if the new count reaches
or exceeds a nonzero cap it clamps the count to the cap and returns stop
(`-1`), otherwise it returns continue (`0`).  (No sample argument exists, so
no sample is produced.) -/
theorem C4_increment_range (count cap mn mx : Int) (h : mn ≤ mx) :
    increment_range { count := count, max := cap } mn mx =
      if cap ≠ 0 ∧ count + (mx - mn + 1) ≥ cap
      then ({ count := cap, max := cap }, -1)
      else ({ count := count + (mx - mn + 1), max := cap }, 0) := by
  simp only [increment_range]
  split_ifs with h1 h2 <;>
    simp only [Prod.mk.injEq, isl_counter.mk.injEq, and_true, true_and] <;>
    omega

/-- C4 witness. -/
theorem C4_increment_range_witness :
    increment_range { count := 0, max := 0 } 1 3 =
      ({ count := 3, max := 0 }, 0) := by
  rw [C4_increment_range 0 0 1 3 (by decide)]
  decide

/-- C5: `increment_counter` increments the count by exactly one, does not
retain the sample (the result is the same for any sample argument), and
returns stop (`-1`) iff the cap is nonzero and the updated count has reached
it, else continue (`0`). -/
theorem C5_increment_counter (count cap : Int) (sample other : List Int) :
    increment_counter { count := count, max := cap } sample =
      ({ count := count + 1, max := cap },
        if cap ≠ 0 ∧ count + 1 ≥ cap then -1 else 0)
    ∧ increment_counter { count := count, max := cap } sample =
      increment_counter { count := count, max := cap } other := by
  refine ⟨?_, rfl⟩
  simp only [increment_counter]
  split_ifs with h1 h2 <;>
    simp only [Prod.mk.injEq, isl_counter.mk.injEq, and_true, true_and] <;>
    omega

/-! ### Unfolding lemmas for the sweep -/

theorem scanLevel_succ_none (S : BSetModel)
    (emit : σ → List Int → σ × Int) (n : Nat) (p : List Int) (s : σ) :
    scanLevel S emit none (n+1) p s =
      match stepRange S p with
      | .error _ => (s, -1)
      | .ok none => (s, 0)
      | .ok (some (m, M)) =>
        if M < m then (s, 0)
        else scanVals (fun s v => scanLevel S emit none n (p ++ [v]) s) s
          (rangeList m M) := by
  cases n <;> cases hstep : stepRange S p <;> simp [scanLevel, hstep]

theorem scanLevel_one_some (S : BSetModel)
    (emit : σ → List Int → σ × Int) (rng : σ → Int → Int → σ × Int)
    (p : List Int) (s : σ) :
    scanLevel S emit (some rng) 1 p s =
      match stepRange S p with
      | .error _ => (s, -1)
      | .ok none => (s, 0)
      | .ok (some (m, M)) =>
        if M < m then (s, 0)
        else
          let r := rng s m M
          if r.2 = 0 then (r.1, 0) else (r.1, -1) := by
  cases hstep : stepRange S p <;> simp [scanLevel, hstep]

theorem scanLevel_succ2_some (S : BSetModel)
    (emit : σ → List Int → σ × Int) (rng : σ → Int → Int → σ × Int)
    (n : Nat) (p : List Int) (s : σ) :
    scanLevel S emit (some rng) (n+2) p s =
      match stepRange S p with
      | .error _ => (s, -1)
      | .ok none => (s, 0)
      | .ok (some (m, M)) =>
        if M < m then (s, 0)
        else scanVals (fun s v => scanLevel S emit (some rng) (n+1) (p ++ [v]) s)
          s (rangeList m M) := by
  cases hstep : stepRange S p <;> simp [scanLevel, hstep]

/-- Under boundedness the range computation never faults: it reports either
an empty fiber or a proper range. -/
theorem stepRange_of_bounded {S : BSetModel} (hB : S.Bounded) (p : List Int) :
    stepRange S p = .ok none ∨ ∃ m M, stepRange S p = .ok (some (m, M)) := by
  have h := hB p
  unfold stepRange
  cases hm : S.lpMin p <;> cases hM : S.lpMax p <;> simp_all

/-- An empty range contributes no points. -/
theorem rangeList_nil {m M : Int} (h : M < m) : rangeList m M = [] := by
  unfold rangeList
  have h0 : (M + 1 - m).toNat = 0 := by omega
  simp [h0]

/-! ### The collecting scan visits exactly the denotation -/

theorem scanVals_collect (g : Int → List (List Int))
    (f : List (List Int) → Int → List (List Int) × Int) (vs : List Int)
    (hf : ∀ s v, v ∈ vs → f s v = (s ++ g v, 0)) :
    ∀ acc, scanVals f acc vs = (acc ++ vs.flatMap g, 0) := by
  induction vs with
  | nil => intro acc; simp [scanVals]
  | cons v vs ih =>
    intro acc
    have h1 := hf acc v (by simp)
    simp only [scanVals, h1]
    norm_num
    rw [ih (fun s w hw => hf s w (by simp [hw]))]
    simp

theorem scanLevel_collect (S : BSetModel) (hB : S.Bounded) :
    ∀ n p acc, scanLevel S collectCb none n p acc =
      (acc ++ (pointsFrom S n p).map (fun q => (1 : Int) :: q), 0) := by
  intro n
  induction n with
  | zero => intro p acc; simp [scanLevel, pointsFrom, collectCb]
  | succ n ih =>
    intro p acc
    rw [scanLevel_succ_none]
    rcases stepRange_of_bounded hB p with hstep | ⟨m, M, hstep⟩
    · simp [hstep, pointsFrom]
    · rw [hstep]
      by_cases hMm : M < m
      · simp [hMm, pointsFrom, hstep, rangeList_nil hMm]
      · simp only [if_neg hMm]
        rw [scanVals_collect (fun v => (pointsFrom S n (p ++ [v])).map
              (fun q => (1 : Int) :: q)) _ _ (fun s v _ => ih (p ++ [v]) s)]
        simp [pointsFrom, hstep, List.map_flatMap]

/-! ### The counting scan computes the size of the denotation -/

theorem length_pointsFrom_succ {S : BSetModel} {p : List Int} {m M : Int}
    (n : Nat) (hstep : stepRange S p = .ok (some (m, M))) :
    (pointsFrom S (n+1) p).length =
      ((rangeList m M).map (fun v => (pointsFrom S n (p ++ [v])).length)).sum := by
  simp [pointsFrom, hstep, List.length_flatMap, Function.comp_def]

theorem length_pointsFrom_one {S : BSetModel} {p : List Int} {m M : Int}
    (hstep : stepRange S p = .ok (some (m, M))) :
    (pointsFrom S 1 p).length = (M + 1 - m).toNat := by
  rw [length_pointsFrom_succ 0 hstep]
  simp [pointsFrom, length_rangeList]

theorem scanVals_count_free (g : Int → Nat)
    (f : isl_counter → Int → isl_counter × Int) (vs : List Int)
    (hf : ∀ c v, v ∈ vs →
      f { count := c, max := 0 } v = ({ count := c + (g v : Int), max := 0 }, 0)) :
    ∀ c : Int, scanVals f { count := c, max := 0 } vs =
      ({ count := c + (((vs.map g).sum : Nat) : Int), max := 0 }, 0) := by
  induction vs with
  | nil => intro c; simp [scanVals]
  | cons v vs ih =>
    intro c
    have h1 := hf c v (by simp)
    simp only [scanVals, h1, lt_self_iff_false, if_false]
    rw [ih (fun c w hw => hf c w (by simp [hw]))]
    simp only [List.map_cons, List.sum_cons, Prod.mk.injEq, isl_counter.mk.injEq,
      and_true, true_and]
    omega

theorem scanLevel_count_free (S : BSetModel) (hB : S.Bounded) :
    ∀ n p (c : Int),
      scanLevel S increment_counter (some increment_range) n p { count := c, max := 0 } =
        ({ count := c + ((pointsFrom S n p).length : Int), max := 0 }, 0) := by
  intro n
  induction n with
  | zero => intro p c; simp [scanLevel, pointsFrom, increment_counter]
  | succ n ih =>
    intro p c
    rcases n with _ | k
    · rw [scanLevel_one_some]
      rcases stepRange_of_bounded hB p with hstep | ⟨m, M, hstep⟩
      · simp [hstep, pointsFrom]
      · rw [hstep]
        by_cases hMm : M < m
        · simp [hMm, pointsFrom, hstep, rangeList_nil hMm]
        · simp only [if_neg hMm, increment_range]
          norm_num
          rw [length_pointsFrom_one hstep]
          omega
    · rw [scanLevel_succ2_some]
      rcases stepRange_of_bounded hB p with hstep | ⟨m, M, hstep⟩
      · simp [hstep, pointsFrom]
      · rw [hstep]
        by_cases hMm : M < m
        · simp [hMm, pointsFrom, hstep, rangeList_nil hMm]
        · simp only [if_neg hMm]
          rw [scanVals_count_free (fun v => (pointsFrom S (k+1) (p ++ [v])).length)
                _ _ (fun c v _ => ih (p ++ [v]) c)]
          rw [length_pointsFrom_succ (k+1) hstep]

theorem scanVals_capped (k : Int) (hk : 0 < k) (g : Int → Nat)
    (f : isl_counter → Int → isl_counter × Int) (vs : List Int)
    (hf : ∀ c v, v ∈ vs → 0 ≤ c → c < k →
      f { count := c, max := k } v =
        if k ≤ c + (g v : Int) then ({ count := k, max := k }, -1)
        else ({ count := c + (g v : Int), max := k }, 0)) :
    ∀ c : Int, 0 ≤ c → c < k →
      scanVals f { count := c, max := k } vs =
        if k ≤ c + (((vs.map g).sum : Nat) : Int)
        then ({ count := k, max := k }, -1)
        else ({ count := c + (((vs.map g).sum : Nat) : Int), max := k }, 0) := by
  induction vs with
  | nil =>
    intro c hc0 hck
    simp only [scanVals, List.map_nil, List.sum_nil, Nat.cast_zero, add_zero]
    rw [if_neg (by omega)]
  | cons v vs ih =>
    intro c hc0 hck
    have h1 := hf c v (by simp) hc0 hck
    by_cases hstop : k ≤ c + (g v : Int)
    · rw [if_pos hstop] at h1
      have hall : k ≤ c + ((((v :: vs).map g).sum : Nat) : Int) := by
        simp only [List.map_cons, List.sum_cons]
        omega
      rw [if_pos hall]
      simp only [scanVals, h1]
      norm_num
    · rw [if_neg hstop] at h1
      simp only [scanVals, h1, lt_self_iff_false, if_false]
      rw [ih (fun c w hw => hf c w (by simp [hw])) (c + (g v : Int)) (by omega)
            (by omega)]
      simp only [List.map_cons, List.sum_cons]
      by_cases hall : k ≤ c + ((g v + (vs.map g).sum : Nat) : Int)
      · rw [if_pos (by omega), if_pos (by push_cast at hall ⊢; omega)]
      · rw [if_neg (by omega), if_neg (by push_cast at hall ⊢; omega)]
        simp only [Prod.mk.injEq, isl_counter.mk.injEq, and_true, true_and]
        omega

theorem scanLevel_capped (S : BSetModel) (hB : S.Bounded) (k : Int) (hk : 0 < k) :
    ∀ n p (c : Int), 0 ≤ c → c < k →
      scanLevel S increment_counter (some increment_range) n p { count := c, max := k } =
        if k ≤ c + ((pointsFrom S n p).length : Int)
        then ({ count := k, max := k }, -1)
        else ({ count := c + ((pointsFrom S n p).length : Int), max := k }, 0) := by
  intro n
  induction n with
  | zero =>
    intro p c hc0 hck
    simp only [scanLevel, increment_counter, pointsFrom, List.length_singleton,
      Nat.cast_one]
    by_cases hstop : k ≤ c + 1
    · rw [if_pos hstop, if_neg (by omega)]
      simp only [Prod.mk.injEq, isl_counter.mk.injEq, and_true, true_and]
      omega
    · rw [if_neg hstop, if_pos (by omega)]
  | succ n ih =>
    intro p c hc0 hck
    rcases n with _ | j
    · rw [scanLevel_one_some]
      rcases stepRange_of_bounded hB p with hstep | ⟨m, M, hstep⟩
      · rw [hstep]
        simp only [pointsFrom, hstep, List.length_nil, Nat.cast_zero, add_zero]
        rw [if_neg (by omega)]
      · rw [hstep]
        by_cases hMm : M < m
        · simp only [if_pos hMm, pointsFrom, hstep, rangeList_nil hMm,
            List.flatMap_nil, List.length_nil, Nat.cast_zero, add_zero]
          rw [if_neg (by omega)]
        · simp only [if_neg hMm, increment_range]
          have hlen : ((pointsFrom S 1 p).length : Int) = M + 1 - m := by
            rw [length_pointsFrom_one hstep]; omega
          rw [hlen]
          by_cases hstop : k ≤ c + (M + 1 - m)
          · rw [if_neg (by omega : ¬(k = 0 ∨ c + M - m + 1 < k))]
            norm_num
            rw [if_pos hstop]
          · rw [if_pos (by omega : k = 0 ∨ c + M - m + 1 < k)]
            norm_num
            rw [if_neg hstop]
            simp only [Prod.mk.injEq, isl_counter.mk.injEq, and_true, true_and]
            omega
    · rw [scanLevel_succ2_some]
      rcases stepRange_of_bounded hB p with hstep | ⟨m, M, hstep⟩
      · rw [hstep]
        simp only [pointsFrom, hstep, List.length_nil, Nat.cast_zero, add_zero]
        rw [if_neg (by omega)]
      · rw [hstep]
        by_cases hMm : M < m
        · simp only [if_pos hMm, pointsFrom, hstep, rangeList_nil hMm,
            List.flatMap_nil, List.length_nil, Nat.cast_zero, add_zero]
          rw [if_neg (by omega)]
        · simp only [if_neg hMm]
          rw [scanVals_capped k hk (fun v => (pointsFrom S (j+1) (p ++ [v])).length)
                _ _ (fun c v _ hc0 hck => ih (p ++ [v]) c hc0 hck) c hc0 hck]
          rw [show (((rangeList m M).map
                (fun v => (pointsFrom S (j+1) (p ++ [v])).length)).sum : Nat)
              = (pointsFrom S (j+2) p).length from
              (length_pointsFrom_succ (j+1) hstep).symm]

/-! ### Top-level characterizations of the three scans -/

theorem isl_basic_set_scan_collect (S : BSetModel) (hB : S.Bounded) :
    scanCollect S = (S.points.map (fun q => (1 : Int) :: q), 0) := by
  unfold scanCollect isl_basic_set_scan BSetModel.points
  by_cases hd : S.d = 0
  · rw [if_pos hd, hd]
    simp [collectCb, pointsFrom]
  · rw [if_neg hd, scanLevel_collect S hB S.d [] []]
    simp

theorem isl_basic_set_scan_count_free (S : BSetModel) (hB : S.Bounded) (c : Int) :
    isl_basic_set_scan S increment_counter (some increment_range)
        { count := c, max := 0 } =
      ({ count := c + (S.points.length : Int), max := 0 }, 0) := by
  unfold isl_basic_set_scan BSetModel.points
  by_cases hd : S.d = 0
  · rw [if_pos hd, hd]
    simp [increment_counter, pointsFrom]
  · rw [if_neg hd, scanLevel_count_free S hB S.d [] c]

theorem isl_basic_set_scan_capped (S : BSetModel) (hB : S.Bounded) (k : Int)
    (hk : 0 < k) (c : Int) (hc0 : 0 ≤ c) (hck : c < k) :
    isl_basic_set_scan S increment_counter (some increment_range)
        { count := c, max := k } =
      if k ≤ c + (S.points.length : Int)
      then ({ count := k, max := k }, -1)
      else ({ count := c + (S.points.length : Int), max := k }, 0) := by
  unfold isl_basic_set_scan BSetModel.points
  by_cases hd : S.d = 0
  · rw [if_pos hd, hd]
    simp only [increment_counter, pointsFrom, List.length_singleton, Nat.cast_one]
    by_cases hstop : k ≤ c + 1
    · rw [if_pos hstop, if_neg (by omega)]
      simp only [Prod.mk.injEq, isl_counter.mk.injEq, and_true, true_and]
      omega
    · rw [if_neg hstop, if_pos (by omega)]
  · rw [if_neg hd, scanLevel_capped S hB k hk S.d [] c hc0 hck]

theorem setPointsCount_cons (S : BSetModel) (rest : List BSetModel) :
    setPointsCount (S :: rest) = S.points.length + setPointsCount rest := by
  simp [setPointsCount]

theorem isl_set_scan_count_free (sets : List BSetModel)
    (hB : ∀ S ∈ sets, S.Bounded) :
    ∀ c : Int, isl_set_scan sets increment_counter (some increment_range)
        { count := c, max := 0 } =
      ({ count := c + (setPointsCount sets : Int), max := 0 }, 0) := by
  induction sets with
  | nil => intro c; simp [isl_set_scan, setPointsCount]
  | cons S rest ih =>
    intro c
    rw [isl_set_scan, isl_basic_set_scan_count_free S (hB S (by simp)) c]
    norm_num
    rw [ih (fun T hT => hB T (by simp [hT])) (c + (S.points.length : Int)),
      setPointsCount_cons]
    simp only [Prod.mk.injEq, isl_counter.mk.injEq, and_true, true_and]
    omega

theorem isl_set_scan_capped (sets : List BSetModel)
    (hB : ∀ S ∈ sets, S.Bounded) (k : Int) (hk : 0 < k) :
    ∀ c : Int, 0 ≤ c → c < k →
      isl_set_scan sets increment_counter (some increment_range)
          { count := c, max := k } =
        if k ≤ c + (setPointsCount sets : Int)
        then ({ count := k, max := k }, -1)
        else ({ count := c + (setPointsCount sets : Int), max := k }, 0) := by
  induction sets with
  | nil =>
    intro c hc0 hck
    simp only [isl_set_scan, setPointsCount, List.map_nil, List.sum_nil,
      Nat.cast_zero, add_zero]
    rw [if_neg (by omega)]
  | cons S rest ih =>
    intro c hc0 hck
    rw [isl_set_scan, isl_basic_set_scan_capped S (hB S (by simp)) k hk c hc0 hck]
    by_cases hstop : k ≤ c + (S.points.length : Int)
    · rw [if_pos hstop]
      norm_num
      rw [if_pos (by rw [setPointsCount_cons]; push_cast; omega)]
    · rw [if_neg hstop]
      norm_num
      rw [ih (fun T hT => hB T (by simp [hT])) (c + (S.points.length : Int))
            (by omega) (by omega), setPointsCount_cons]
      by_cases hall : k ≤ c + ((S.points.length + setPointsCount rest : Nat) : Int)
      · rw [if_pos (by push_cast at hall ⊢; omega), if_pos hall]
      · rw [if_neg (by push_cast at hall ⊢; omega), if_neg hall]
        simp only [Prod.mk.injEq, isl_counter.mk.injEq, and_true, true_and]
        push_cast
        omega

/-! ### Claim C1: the innermost-level range shortcut agrees with per-point
enumeration -/

/-- C1: for every bounded basic set, counting through
`isl_basic_set_scan` with the per-point counter callback — which takes the
`increment_range(min[level], max[level])` shortcut at `level == dim - 1`
instead of descending — produces, with unlimited cap, exactly the number of
sample points the same scan delivers to a generic collecting callback. -/
theorem C1_count_shortcut_agrees (S : BSetModel) (hB : S.Bounded) :
    (scanCount S 0 0).1.count = ((scanCollect S).1.length : Int) := by
  rw [scanCount, isl_basic_set_scan_count_free S hB 0,
    isl_basic_set_scan_collect S hB]
  simp

/-- C1 witness: the one-dimensional set with range `0..2` has shortcut
count `3` and three collected samples. -/
theorem C1_count_shortcut_agrees_witness :
    (scanCount { d := 1, lpMin := fun _ => .ok 0, lpMax := fun _ => .ok 2 } 0 0).1.count
      = (((scanCollect { d := 1, lpMin := fun _ => .ok 0, lpMax := fun _ => .ok 2 }).1.length : Nat) : Int) :=
  C1_count_shortcut_agrees { d := 1, lpMin := fun _ => .ok 0, lpMax := fun _ => .ok 2 }
    (fun p => by exact ⟨nofun, nofun, nofun, nofun⟩)

/-! ### Claim C6: the zero-dimensional shortcut -/

/-- C6: a basic set of total dimension `0` makes `isl_basic_set_scan` emit
exactly one sample — the one-element homogeneous vector `[1]` — to the
callback and return its status; the result is `emit s [1]` for an arbitrary
callback and arbitrary counting shortcut, independent of the LP oracles (no
tableau is consulted), and the collecting callback receives exactly
`[[1]]`. -/
theorem C6_zero_dim (S : BSetModel) (emit : σ → List Int → σ × Int)
    (shortcut : Option (σ → Int → Int → σ × Int)) (s : σ) (h : S.d = 0) :
    isl_basic_set_scan S emit shortcut s = emit s [1]
    ∧ scanCollect S = ([[1]], 0) := by
  constructor
  · unfold isl_basic_set_scan
    rw [if_pos h]
  · unfold scanCollect isl_basic_set_scan
    rw [if_pos h]
    rfl

/-- C6 witness. -/
theorem C6_zero_dim_witness :
    isl_basic_set_scan { d := 0, lpMin := fun _ => .err, lpMax := fun _ => .err }
        collectCb none [] = collectCb [] [1]
    ∧ scanCollect { d := 0, lpMin := fun _ => .err, lpMax := fun _ => .err }
        = ([[1]], 0) :=
  C6_zero_dim { d := 0, lpMin := fun _ => .err, lpMax := fun _ => .err }
    collectCb none [] rfl

/-! ### Claim C2: the cap is honored -/

theorem isl_basic_set_count_upto_eq (S : BSetModel) (hB : S.Bounded)
    (cap : Int) (hk : 0 < cap) :
    isl_basic_set_count_upto S cap = some (min cap (S.points.length : Int)) := by
  unfold isl_basic_set_count_upto scanCount
  rw [isl_basic_set_scan_capped S hB cap hk 0 le_rfl hk]
  by_cases hstop : cap ≤ 0 + (S.points.length : Int)
  · rw [if_pos hstop]
    norm_num
    omega
  · rw [if_neg hstop]
    norm_num
    omega

theorem isl_set_count_upto_eq (sets : List BSetModel)
    (hB : ∀ S ∈ sets, S.Bounded) (cap : Int) (hk : 0 < cap) :
    isl_set_count_upto sets cap = some (min cap (setPointsCount sets : Int)) := by
  unfold isl_set_count_upto setScanCount
  rw [isl_set_scan_capped sets hB cap hk 0 le_rfl hk]
  by_cases hstop : cap ≤ 0 + (setPointsCount sets : Int)
  · rw [if_pos hstop]
    norm_num
    omega
  · rw [if_neg hstop]
    norm_num
    omega

/-- C2: for every bounded basic set (or disjoint union of bounded basic
sets) and every cap `> 0`, a successful `isl_basic_set_count_upto` /
`isl_set_count_upto` reports `out ≤ cap`, and `out = cap` holds iff the true
number of integer points is at least `cap`. -/
theorem C2_cap_honored :
    (∀ (S : BSetModel) (cap out : Int), S.Bounded → 0 < cap →
      isl_basic_set_count_upto S cap = some out →
      out ≤ cap ∧ (out = cap ↔ cap ≤ (S.points.length : Int)))
    ∧ (∀ (sets : List BSetModel) (cap out : Int), (∀ S ∈ sets, S.Bounded) →
      0 < cap → isl_set_count_upto sets cap = some out →
      out ≤ cap ∧ (out = cap ↔ cap ≤ (setPointsCount sets : Int))) := by
  constructor
  · intro S cap out hB hk hout
    rw [isl_basic_set_count_upto_eq S hB cap hk] at hout
    have : out = min cap (S.points.length : Int) := by
      exact (Option.some.injEq _ _ ▸ hout).symm
    constructor
    · omega
    · constructor <;> intro h <;> omega
  · intro sets cap out hB hk hout
    rw [isl_set_count_upto_eq sets hB cap hk] at hout
    have : out = min cap (setPointsCount sets : Int) := by
      exact (Option.some.injEq _ _ ▸ hout).symm
    constructor
    · omega
    · constructor <;> intro h <;> omega

/-! ### The scans never change the stored cap -/

theorem scanVals_fst_inv (P : σ → Prop) (f : σ → Int → σ × Int)
    (hf : ∀ s v, P s → P (f s v).1) :
    ∀ vs s, P s → P ((scanVals f s vs).1) := by
  intro vs
  induction vs with
  | nil => intro s hs; simpa [scanVals] using hs
  | cons v vs ih =>
    intro s hs
    by_cases hneg : (f s v).2 < 0
    · simp only [scanVals, if_pos hneg]
      exact hf s v hs
    · simp only [scanVals, if_neg hneg]
      exact ih _ (hf s v hs)

theorem scanLevel_fst_inv (S : BSetModel) (emit : σ → List Int → σ × Int)
    (shortcut : Option (σ → Int → Int → σ × Int)) (P : σ → Prop)
    (hemit : ∀ s q, P s → P ((emit s q).1))
    (hrng : ∀ rng, shortcut = some rng → ∀ s m M, P s → P ((rng s m M).1)) :
    ∀ n p s, P s → P ((scanLevel S emit shortcut n p s).1) := by
  intro n
  induction n with
  | zero => intro p s hs; exact hemit s (1 :: p) hs
  | succ n ih =>
    intro p s hs
    rcases shortcut with _ | rng
    · rw [scanLevel_succ_none]
      cases hstep : stepRange S p with
      | error e => exact hs
      | ok o =>
        rcases o with _ | ⟨m, M⟩
        · exact hs
        · by_cases hMm : M < m
          · simp only [if_pos hMm]; exact hs
          · simp only [if_neg hMm]
            exact scanVals_fst_inv P _ (fun s v hs => ih (p ++ [v]) s hs) _ s hs
    · rcases n with _ | j
      · rw [scanLevel_one_some]
        cases hstep : stepRange S p with
        | error e => exact hs
        | ok o =>
          rcases o with _ | ⟨m, M⟩
          · exact hs
          · by_cases hMm : M < m
            · simp only [if_pos hMm]; exact hs
            · simp only [if_neg hMm]
              by_cases hz : (rng s m M).2 = 0
              · simp only [if_pos hz]
                exact hrng rng rfl s m M hs
              · simp only [if_neg hz]
                exact hrng rng rfl s m M hs
      · rw [scanLevel_succ2_some]
        cases hstep : stepRange S p with
        | error e => exact hs
        | ok o =>
          rcases o with _ | ⟨m, M⟩
          · exact hs
          · by_cases hMm : M < m
            · simp only [if_pos hMm]; exact hs
            · simp only [if_neg hMm]
              exact scanVals_fst_inv P _ (fun s v hs => ih (p ++ [v]) s hs) _ s hs

theorem isl_basic_set_scan_max_inv (S : BSetModel) (cnt : isl_counter) :
    ((isl_basic_set_scan S increment_counter (some increment_range) cnt).1).max
      = cnt.max := by
  unfold isl_basic_set_scan
  by_cases hd : S.d = 0
  · rw [if_pos hd]
    simp only [increment_counter]
    split <;> rfl
  · rw [if_neg hd]
    refine scanLevel_fst_inv S _ _ (fun x => x.max = cnt.max) ?_ ?_ S.d [] cnt rfl
    · intro s q hs
      simp only [increment_counter]
      split <;> exact hs
    · intro rng h s m M hs
      cases h
      simp only [increment_range]
      split <;> exact hs

theorem isl_set_scan_max_inv (sets : List BSetModel) :
    ∀ cnt : isl_counter,
      ((isl_set_scan sets increment_counter (some increment_range) cnt).1).max
        = cnt.max := by
  induction sets with
  | nil => intro cnt; rfl
  | cons S rest ih =>
    intro cnt
    rw [isl_set_scan]
    by_cases hneg :
        (isl_basic_set_scan S increment_counter (some increment_range) cnt).2 < 0
    · simp only [if_pos hneg]
      exact isl_basic_set_scan_max_inv S cnt
    · simp only [if_neg hneg]
      rw [ih _]
      exact isl_basic_set_scan_max_inv S cnt

/-! ### Claim C3: error propagation in the counting entry points -/

/-- C3: whenever the underlying scan returns a negative status, each
counting entry point (`isl_basic_set_count_upto`, `isl_set_count_upto`,
`isl_set_count` — the last with its internal cap `ctx->zero = 0`) propagates
the failure (returns `none`, the out-parameter untouched) if and only if the
accumulated count is strictly below the cap; otherwise it returns success
with the accumulated count. -/
theorem C3_error_propagation :
    (∀ (S : BSetModel) (cap : Int), (scanCount S 0 cap).2 < 0 →
      ((isl_basic_set_count_upto S cap = none ↔
          (scanCount S 0 cap).1.count < cap)
        ∧ (¬ (scanCount S 0 cap).1.count < cap →
          isl_basic_set_count_upto S cap = some (scanCount S 0 cap).1.count)))
    ∧ (∀ (sets : List BSetModel) (cap : Int), (setScanCount sets 0 cap).2 < 0 →
      ((isl_set_count_upto sets cap = none ↔
          (setScanCount sets 0 cap).1.count < cap)
        ∧ (¬ (setScanCount sets 0 cap).1.count < cap →
          isl_set_count_upto sets cap = some (setScanCount sets 0 cap).1.count)))
    ∧ (∀ sets : List BSetModel, (setScanCount sets 0 0).2 < 0 →
      ((isl_set_count sets = none ↔ (setScanCount sets 0 0).1.count < 0)
        ∧ (¬ (setScanCount sets 0 0).1.count < 0 →
          isl_set_count sets = some (setScanCount sets 0 0).1.count))) := by
  have hbasic : ∀ (S : BSetModel) (cap : Int), (scanCount S 0 cap).2 < 0 →
      ((isl_basic_set_count_upto S cap = none ↔
          (scanCount S 0 cap).1.count < cap)
        ∧ (¬ (scanCount S 0 cap).1.count < cap →
          isl_basic_set_count_upto S cap = some (scanCount S 0 cap).1.count)) := by
    intro S cap hneg
    have hmax : (scanCount S 0 cap).1.max = cap :=
      isl_basic_set_scan_max_inv S { count := 0, max := cap }
    simp only [isl_basic_set_count_upto]
    rw [hmax]
    constructor
    · constructor
      · intro hnone
        by_contra hge
        rw [if_neg (by tauto)] at hnone
        exact Option.some_ne_none _ hnone
      · intro hlt
        rw [if_pos ⟨hneg, hlt⟩]
    · intro hge
      rw [if_neg (by tauto)]
  have hset : ∀ (sets : List BSetModel) (cap : Int),
      (setScanCount sets 0 cap).2 < 0 →
      ((isl_set_count_upto sets cap = none ↔
          (setScanCount sets 0 cap).1.count < cap)
        ∧ (¬ (setScanCount sets 0 cap).1.count < cap →
          isl_set_count_upto sets cap = some (setScanCount sets 0 cap).1.count)) := by
    intro sets cap hneg
    have hmax : (setScanCount sets 0 cap).1.max = cap :=
      isl_set_scan_max_inv sets { count := 0, max := cap }
    simp only [isl_set_count_upto]
    rw [hmax]
    constructor
    · constructor
      · intro hnone
        by_contra hge
        rw [if_neg (by tauto)] at hnone
        exact Option.some_ne_none _ hnone
      · intro hlt
        rw [if_pos ⟨hneg, hlt⟩]
    · intro hge
      rw [if_neg (by tauto)]
  exact ⟨hbasic, hset, fun sets h => hset sets 0 h⟩

theorem mdlRange02_bounded : mdlRange02.Bounded :=
  fun _ => ⟨nofun, nofun, nofun, nofun⟩

/-- C2 witness: counting `mdlRange02` (3 points) with cap 2 gives `out = 2`,
and the same through the set driver. -/
theorem C2_cap_honored_witness :
    ((2:Int) ≤ 2 ∧ ((2:Int) = 2 ↔ (2:Int) ≤ (mdlRange02.points.length : Int)))
    ∧ ((2:Int) ≤ 2 ∧
        ((2:Int) = 2 ↔ (2:Int) ≤ (setPointsCount [mdlRange02] : Int))) :=
  ⟨C2_cap_honored.1 mdlRange02 2 2 mdlRange02_bounded (by decide) (by decide),
   C2_cap_honored.2 [mdlRange02] 2 2
     (fun S hS => by
       rw [List.mem_singleton] at hS
       subst hS
       exact mdlRange02_bounded)
     (by decide) (by decide)⟩

/-- C3 witness: on a faulting scan with count `0 < cap = 5` every entry
point propagates the failure; with `isl_set_count`'s cap `0` the failure is
swallowed. -/
theorem C3_error_propagation_witness :
    ((isl_basic_set_count_upto mdlErr 5 = none ↔
        (scanCount mdlErr 0 5).1.count < 5)
      ∧ (¬ (scanCount mdlErr 0 5).1.count < 5 →
        isl_basic_set_count_upto mdlErr 5 = some (scanCount mdlErr 0 5).1.count))
    ∧ ((isl_set_count [mdlErr] = none ↔
        (setScanCount [mdlErr] 0 0).1.count < 0)
      ∧ (¬ (setScanCount [mdlErr] 0 0).1.count < 0 →
        isl_set_count [mdlErr] = some (setScanCount [mdlErr] 0 0).1.count)) :=
  ⟨C3_error_propagation.1 mdlErr 5 (by decide),
   C3_error_propagation.2.2 [mdlErr] (by decide)⟩

theorem stepRange_error_of_bad {S : BSetModel} {p : List Int}
    (h : levelBad S p = true) : stepRange S p = .error () := by
  unfold levelBad lpBad at h
  unfold stepRange
  cases hm : S.lpMin p <;> cases hM : S.lpMax p <;> simp_all

theorem scanLevel_error (S : BSetModel) (emit : σ → List Int → σ × Int)
    (shortcut : Option (σ → Int → Int → σ × Int)) (n : Nat) (p : List Int)
    (s : σ) (hstep : stepRange S p = .error ()) :
    scanLevel S emit shortcut (n+1) p s = (s, -1) := by
  rcases shortcut with _ | rng
  · rw [scanLevel_succ_none, hstep]
  · rcases n with _ | j
    · rw [scanLevel_one_some, hstep]
    · rw [scanLevel_succ2_some, hstep]

theorem scanVals_mem_neg (f : σ → Int → σ × Int) {vs : List Int} {v : Int}
    (hv : v ∈ vs) (hf : ∀ s, (f s v).2 = -1) :
    ∀ s, (scanVals f s vs).2 = -1 := by
  induction vs with
  | nil => cases hv
  | cons w ws ih =>
    intro s
    by_cases hneg : (f s w).2 < 0
    · simp [scanVals, hneg]
    · simp only [scanVals, if_neg hneg]
      rcases List.mem_cons.mp hv with rfl | hv2
      · exact absurd (by rw [hf s]; omega) hneg
      · exact ih hv2 _

theorem scanLevel_bad_neg (S : BSetModel) (emit : σ → List Int → σ × Int)
    (shortcut : Option (σ → Int → Int → σ × Int)) (q : List Int)
    (hbad : levelBad S q = true) :
    ∀ n p, reachesB S n p q = true → q.length < p.length + n →
      ∀ s, (scanLevel S emit shortcut n p s).2 = -1 := by
  intro n
  induction n with
  | zero =>
    intro p hreach hlen s
    rw [reachesB] at hreach
    have : p = q := by simpa using hreach
    subst this
    omega
  | succ n ih =>
    intro p hreach hlen s
    rw [reachesB, Bool.or_eq_true] at hreach
    rcases hreach with hpq | hdesc
    · have : p = q := by simpa using hpq
      subst this
      rw [scanLevel_error S emit shortcut n p s (stepRange_error_of_bad hbad)]
    · rcases hstep : stepRange S p with e | o
      · rw [scanLevel_error S emit shortcut n p s (by rw [hstep])]
      · rw [hstep] at hdesc
        rcases o with _ | ⟨m, M⟩
        · simp at hdesc
        · rcases List.any_eq_true.mp hdesc with ⟨v, hv, hr⟩
          have hvmm := mem_rangeList.mp hv
          have hMm : ¬ M < m := by omega
          have hlen2 : q.length < (p ++ [v]).length + n := by
            simp only [List.length_append, List.length_singleton]
            omega
          have hrec : ∀ s, (scanLevel S emit shortcut n (p ++ [v]) s).2 = -1 :=
            fun s => ih (p ++ [v]) hr hlen2 s
          rcases shortcut with _ | rng
          · rw [scanLevel_succ_none, hstep]
            simp only [if_neg hMm]
            exact scanVals_mem_neg _ hv (fun s => hrec s) s
          · rcases n with _ | j
            · -- the shortcut consumes the innermost level, but then the
              -- reached prefix would have full length, contradicting hlen
              rw [reachesB] at hr
              have : p ++ [v] = q := by simpa using hr
              subst this
              simp only [List.length_append, List.length_singleton] at hlen
              omega
            · rw [scanLevel_succ2_some, hstep]
              simp only [if_neg hMm]
              exact scanVals_mem_neg _ hv (fun s => hrec s) s

/-- C7: if any prefix the sweep can visit has a faulting range computation
(an LP call reporting unbounded or error) at a proper level, then
`isl_basic_set_scan` — with any callback and with or without the counting
shortcut — aborts and returns the error status `-1`. -/
theorem C7_lp_fault_aborts (S : BSetModel) (emit : σ → List Int → σ × Int)
    (shortcut : Option (σ → Int → Int → σ × Int)) (s : σ) (q : List Int)
    (hreach : reachesB S S.d [] q = true) (hq : q.length < S.d)
    (hbad : levelBad S q = true) :
    (isl_basic_set_scan S emit shortcut s).2 = -1 := by
  have hd : ¬ S.d = 0 := by omega
  unfold isl_basic_set_scan
  rw [if_neg hd]
  exact scanLevel_bad_neg S emit shortcut q hbad S.d [] hreach
    (by simpa using hq) s

/-- C7 witness: scanning `mdlUnb` with the collecting callback returns the
error status. -/
theorem C7_lp_fault_aborts_witness :
    (isl_basic_set_scan mdlUnb collectCb none []).2 = -1 :=
  C7_lp_fault_aborts mdlUnb collectCb none [] [0] (by decide) (by decide)
    (by decide)

/-! ### Helper lemmas about the interning table -/

theorem isl_id_has_name_and_user_self (id : isl_id) :
    isl_id_has_name_and_user id ⟨id.name, id.user⟩ = some true := by
  unfold isl_id_has_name_and_user
  rw [if_neg (by simp)]
  cases hn : id.name <;> simp [hn]

theorem isl_id_has_name_and_user_true_key {id : isl_id} {nu : isl_name_and_user}
    (h : isl_id_has_name_and_user id nu = some true) :
    id.name = nu.name ∧ id.user = nu.user := by
  unfold isl_id_has_name_and_user at h
  by_cases hu : id.user ≠ nu.user
  · rw [if_pos hu] at h
    simp at h
  · rw [if_neg hu] at h
    push_neg at hu
    by_cases hnn : id.name = none ∧ nu.name = none
    · exact ⟨hnn.1.trans hnn.2.symm, hu⟩
    · rw [if_neg hnn] at h
      cases ha : id.name <;> cases hb : nu.name <;> rw [ha, hb] at h <;>
        simp_all

theorem tableFind_hit {table : List (Nat × isl_id)} {h : Nat}
    {nu : isl_name_and_user} {e : Nat × isl_id}
    (hfind : tableFind table h nu = some (some e)) :
    e ∈ table ∧ e.2.hash = h ∧ isl_id_has_name_and_user e.2 nu = some true := by
  induction table with
  | nil => simp [tableFind] at hfind
  | cons f rest ih =>
    rw [tableFind] at hfind
    by_cases hh : f.2.hash = h
    · rw [if_pos hh] at hfind
      cases heq : isl_id_has_name_and_user f.2 nu with
      | none => rw [heq] at hfind; simp at hfind
      | some b =>
        rw [heq] at hfind
        cases b
        · rcases ih hfind with ⟨h1, h2, h3⟩
          exact ⟨by simp [h1], h2, h3⟩
        · simp only [Option.some.injEq] at hfind
          subst hfind
          exact ⟨by simp, hh, heq⟩
    · rw [if_neg hh] at hfind
      rcases ih hfind with ⟨h1, h2, h3⟩
      exact ⟨by simp [h1], h2, h3⟩

theorem tableFind_miss {table : List (Nat × isl_id)} {h : Nat}
    {nu : isl_name_and_user}
    (hfind : tableFind table h nu = some none) :
    ∀ e ∈ table, e.2.hash = h → isl_id_has_name_and_user e.2 nu ≠ some true := by
  induction table with
  | nil => simp
  | cons f rest ih =>
    rw [tableFind] at hfind
    intro e he hh
    by_cases hfh : f.2.hash = h
    · rw [if_pos hfh] at hfind
      cases heq : isl_id_has_name_and_user f.2 nu with
      | none => rw [heq] at hfind; simp at hfind
      | some b =>
        rw [heq] at hfind
        cases b
        · rcases List.mem_cons.mp he with rfl | he2
          · rw [heq]; simp
          · exact ih hfind e he2 hh
        · simp at hfind
    · rw [if_neg hfh] at hfind
      rcases List.mem_cons.mp he with rfl | he2
      · exact absurd hh hfh
      · exact ih hfind e he2 hh

theorem tableFind_append_hit {table : List (Nat × isl_id)} {h : Nat}
    {nu : isl_name_and_user} (hmiss : tableFind table h nu = some none)
    (e : Nat × isl_id) (hh : e.2.hash = h)
    (heq : isl_id_has_name_and_user e.2 nu = some true) :
    tableFind (table ++ [e]) h nu = some (some e) := by
  induction table with
  | nil => simp [tableFind, hh, heq]
  | cons f rest ih =>
    rw [tableFind] at hmiss
    rw [List.cons_append, tableFind]
    by_cases hfh : f.2.hash = h
    · rw [if_pos hfh] at hmiss ⊢
      cases heq2 : isl_id_has_name_and_user f.2 nu with
      | none => rw [heq2] at hmiss; simp at hmiss
      | some b =>
        rw [heq2] at hmiss
        cases b
        · exact ih hmiss
        · simp at hmiss
    · rw [if_neg hfh] at hmiss ⊢
      exact ih hmiss

theorem bumpRef_preserves {table : List (Nat × isl_id)} {addr : Nat}
    {e2 : Nat × isl_id} (h : e2 ∈ bumpRef table addr) :
    ∃ e ∈ table, e2.1 = e.1 ∧ e2.2.name = e.2.name ∧ e2.2.user = e.2.user
      ∧ e2.2.hash = e.2.hash ∧ e.2.ref ≤ e2.2.ref := by
  rcases List.mem_map.mp h with ⟨e, he, rfl⟩
  by_cases ha : e.1 = addr
  · simp only [if_pos ha]
    exact ⟨e, he, rfl, rfl, rfl, rfl, by omega⟩
  · simp only [if_neg ha]
    exact ⟨e, he, rfl, rfl, rfl, rfl, le_refl _⟩

theorem map_fst_bumpRef (table : List (Nat × isl_id)) (addr : Nat) :
    (bumpRef table addr).map Prod.fst = table.map Prod.fst := by
  unfold bumpRef
  rw [List.map_map]
  refine List.map_congr_left ?_
  intro e _
  by_cases ha : e.1 = addr <;> simp [ha]

theorem bumpRef_cons (f : Nat × isl_id) (rest : List (Nat × isl_id)) (addr : Nat) :
    bumpRef (f :: rest) addr =
      (f.1, if f.1 = addr then { f.2 with ref := f.2.ref + 1 } else f.2)
        :: bumpRef rest addr := by
  unfold bumpRef
  rw [List.map_cons]
  by_cases ha : f.1 = addr <;> simp [ha]

theorem tableFind_bumpRef (table : List (Nat × isl_id)) (h : Nat)
    (nu : isl_name_and_user) (addr : Nat) :
    tableFind (bumpRef table addr) h nu =
      (tableFind table h nu).map (Option.map
        (fun e => if e.1 = addr then (e.1, { e.2 with ref := e.2.ref + 1 }) else e)) := by
  induction table with
  | nil => simp [tableFind, bumpRef]
  | cons f rest ih =>
    rw [bumpRef_cons, tableFind, tableFind]
    have hb2 : ((f.1, if f.1 = addr then { f.2 with ref := f.2.ref + 1 } else f.2)
        : Nat × isl_id).2.hash = f.2.hash := by
      by_cases ha : f.1 = addr <;> simp [ha]
    have hbeq : isl_id_has_name_and_user
        ((f.1, if f.1 = addr then { f.2 with ref := f.2.ref + 1 } else f.2)
          : Nat × isl_id).2 nu = isl_id_has_name_and_user f.2 nu := by
      by_cases ha : f.1 = addr
      · rw [if_pos ha]
        rfl
      · rw [if_neg ha]
    rw [hb2, hbeq]
    by_cases hfh : f.2.hash = h
    · simp only [if_pos hfh]
      cases heq : isl_id_has_name_and_user f.2 nu with
      | none => rfl
      | some b =>
        cases b
        · exact ih
        · by_cases ha : f.1 = addr <;> simp [ha]
    · simp only [if_neg hfh]
      exact ih

theorem find?_of_mem_nodup {table : List (Nat × isl_id)} {addr : Nat}
    {id : isl_id} (hnd : (table.map Prod.fst).Nodup)
    (hmem : (addr, id) ∈ table) :
    table.find? (fun e => e.1 == addr) = some (addr, id) := by
  induction table with
  | nil => cases hmem
  | cons f rest ih =>
    rw [List.map_cons, List.nodup_cons] at hnd
    rcases List.mem_cons.mp hmem with rfl | hmem2
    · rw [List.find?_cons_of_pos _ (by simp)]
    · by_cases hf : f.1 = addr
      · exfalso
        apply hnd.1
        rw [hf]
        exact List.mem_map.mpr ⟨(addr, id), hmem2, rfl⟩
      · rw [List.find?_cons_of_neg _ (by simpa using hf)]
        exact ih hnd.2 hmem2

theorem mem_unique_of_nodup {t : List (Nat × isl_id)}
    (hnd : (t.map Prod.fst).Nodup) {a : Nat} {x y : isl_id}
    (hx : (a, x) ∈ t) (hy : (a, y) ∈ t) : x = y := by
  have h1 := find?_of_mem_nodup hnd hx
  have h2 := find?_of_mem_nodup hnd hy
  rw [h1] at h2
  simpa using h2

theorem miss_no_key {ctx : isl_ctx} (hWF : ctxWF ctx)
    {name : Option (List Nat)} {user : Nat}
    (hmiss : tableFind ctx.id_table (idKeyHash name user) ⟨name, user⟩
      = some none) :
    ∀ e ∈ ctx.id_table, ¬(e.2.name = name ∧ e.2.user = user) := by
  intro e he hkey
  have hh : e.2.hash = idKeyHash name user := by
    rw [hWF.2.2.1 e he, hkey.1, hkey.2]
  apply tableFind_miss hmiss e he hh
  have hself := isl_id_has_name_and_user_self e.2
  rw [hkey.1, hkey.2] at hself
  exact hself

theorem find?_bumpRef (t : List (Nat × isl_id)) (addr : Nat) :
    (bumpRef t addr).find? (fun e => e.1 == addr) =
      (t.find? (fun e => e.1 == addr)).map
        (fun e => if e.1 = addr then (e.1, { e.2 with ref := e.2.ref + 1 }) else e) := by
  induction t with
  | nil => simp [bumpRef]
  | cons f rest ih =>
    rw [bumpRef_cons]
    by_cases hf : f.1 = addr
    · rw [List.find?_cons_of_pos _ (by simpa using hf),
        List.find?_cons_of_pos _ (by simpa using hf)]
      simp [hf]
    · rw [List.find?_cons_of_neg _ (by simpa using hf),
        List.find?_cons_of_neg _ (by simpa using hf)]
      exact ih

theorem refOf_bump (ctx : isl_ctx) (addr : Nat)
    (h : ∃ id, (addr, id) ∈ ctx.id_table) :
    refOf { ctx with id_table := bumpRef ctx.id_table addr } addr
      = refOf ctx addr + 1 := by
  rcases h with ⟨id, hid⟩
  unfold refOf
  rw [find?_bumpRef]
  cases hfind : ctx.id_table.find? (fun e => e.1 == addr) with
  | none =>
    exfalso
    have hsome : (ctx.id_table.find? (fun e => e.1 == addr)).isSome = true := by
      rw [List.find?_isSome]
      exact ⟨(addr, id), hid, by exact beq_self_eq_true addr⟩
    rw [hfind] at hsome
    simp at hsome
  | some e =>
    have he : e.1 = addr := by
      have := List.find?_some hfind
      simpa using this
    simp [he]

/-! ### Preservation of the interning invariant -/

theorem ctxWF_bump {ctx : isl_ctx} (hWF : ctxWF ctx) (addr : Nat) :
    ctxWF { ctx with id_table := bumpRef ctx.id_table addr } := by
  obtain ⟨hnd, hlt, hhash, href, huniq⟩ := hWF
  refine ⟨?_, ?_, ?_, ?_, ?_⟩
  · rw [map_fst_bumpRef]
    exact hnd
  · intro e2 he2
    rcases bumpRef_preserves he2 with ⟨e, he, h1, _, _, _, _⟩
    rw [h1]
    exact hlt e he
  · intro e2 he2
    rcases bumpRef_preserves he2 with ⟨e, he, _, h2, h3, h4, _⟩
    rw [h2, h3, h4]
    exact hhash e he
  · intro e2 he2
    rcases bumpRef_preserves he2 with ⟨e, he, _, _, _, _, h5⟩
    exact le_trans (href e he) h5
  · intro e2 he2 e3 he3 hn hu
    rcases bumpRef_preserves he2 with ⟨e, he, h1, h2, h3, _, _⟩
    rcases bumpRef_preserves he3 with ⟨f, hf, g1, g2, g3, _, _⟩
    rw [h1, g1]
    exact huniq e he f hf (by rw [← h2, ← g2, hn]) (by rw [← h3, ← g3, hu])

theorem ctxWF_insert {ctx : isl_ctx} (hWF : ctxWF ctx)
    {n : Option (List Nat)} {u : Nat}
    (hmiss : tableFind ctx.id_table (idKeyHash n u) ⟨n, u⟩ = some none) :
    ctxWF { id_table := ctx.id_table ++ [(ctx.next, id_alloc n u)],
            next := ctx.next + 1 } := by
  have hnomem := miss_no_key hWF hmiss
  obtain ⟨hnd, hlt, hhash, href, huniq⟩ := hWF
  refine ⟨?_, ?_, ?_, ?_, ?_⟩
  · rw [List.map_append, List.nodup_append]
    refine ⟨hnd, by simp, ?_⟩
    intro a ha hb
    simp only [List.map_cons, List.map_nil, List.mem_singleton] at hb
    subst hb
    rcases List.mem_map.mp ha with ⟨e, he, hfst⟩
    have := hlt e he
    omega
  · intro e he
    rcases List.mem_append.mp he with h | h
    · show e.1 < ctx.next + 1
      have := hlt e h
      omega
    · rw [List.mem_singleton] at h
      subst h
      show ctx.next < ctx.next + 1
      omega
  · intro e he
    rcases List.mem_append.mp he with h | h
    · exact hhash e h
    · rw [List.mem_singleton] at h
      subst h
      rfl
  · intro e he
    rcases List.mem_append.mp he with h | h
    · exact href e h
    · rw [List.mem_singleton] at h
      subst h
      exact le_refl 1
  · intro e2 he2 e3 he3 hn hu
    rcases List.mem_append.mp he2 with h2 | h2 <;>
      rcases List.mem_append.mp he3 with h3 | h3
    · exact huniq e2 h2 e3 h3 hn hu
    · rw [List.mem_singleton] at h3
      subst h3
      exact absurd ⟨by rw [hn]; rfl, by rw [hu]; rfl⟩ (hnomem e2 h2)
    · rw [List.mem_singleton] at h2
      subst h2
      exact absurd ⟨by rw [← hn]; rfl, by rw [← hu]; rfl⟩ (hnomem e3 h3)
    · rw [List.mem_singleton] at h2 h3
      rw [h2, h3]

theorem ctxWF_entrywise {ctx : isl_ctx} (hWF : ctxWF ctx)
    (f : Nat × isl_id → Nat × isl_id)
    (hfst : ∀ e, (f e).1 = e.1)
    (hname : ∀ e, (f e).2.name = e.2.name)
    (huser : ∀ e, (f e).2.user = e.2.user)
    (hhash2 : ∀ e, (f e).2.hash = e.2.hash)
    (href2 : ∀ e ∈ ctx.id_table, 1 ≤ (f e).2.ref) :
    ctxWF { ctx with id_table := ctx.id_table.map f } := by
  obtain ⟨hnd, hlt, hhash, href, huniq⟩ := hWF
  refine ⟨?_, ?_, ?_, ?_, ?_⟩
  · rw [List.map_map]
    have hcomp : Prod.fst ∘ f = Prod.fst := funext hfst
    rw [hcomp]
    exact hnd
  · intro e2 he2
    rcases List.mem_map.mp he2 with ⟨e, he, rfl⟩
    rw [hfst]
    exact hlt e he
  · intro e2 he2
    rcases List.mem_map.mp he2 with ⟨e, he, rfl⟩
    rw [hname, huser, hhash2]
    exact hhash e he
  · intro e2 he2
    rcases List.mem_map.mp he2 with ⟨e, he, rfl⟩
    exact href2 e he
  · intro e2 he2 e3 he3 hn hu
    rcases List.mem_map.mp he2 with ⟨e, he, rfl⟩
    rcases List.mem_map.mp he3 with ⟨f2, hf2, rfl⟩
    rw [hfst, hfst]
    refine huniq e he f2 hf2 ?_ ?_
    · rw [← hname e, ← hname f2, hn]
    · rw [← huser e, ← huser f2, hu]

theorem ctxWF_filter {ctx : isl_ctx} (hWF : ctxWF ctx) (p : Nat × isl_id → Bool) :
    ctxWF { ctx with id_table := ctx.id_table.filter p } := by
  obtain ⟨hnd, hlt, hhash, href, huniq⟩ := hWF
  have hsub : List.Sublist (ctx.id_table.filter p) ctx.id_table :=
    List.filter_sublist _
  refine ⟨?_, ?_, ?_, ?_, ?_⟩
  · exact List.Nodup.sublist (hsub.map Prod.fst) hnd
  · intro e he
    exact hlt e (hsub.mem he)
  · intro e he
    exact hhash e (hsub.mem he)
  · intro e he
    exact href e (hsub.mem he)
  · intro e2 he2 e3 he3 hn hu
    exact huniq e2 (hsub.mem he2) e3 (hsub.mem he3) hn hu

theorem isl_id_free_WF {ctx : isl_ctx} (hWF : ctxWF ctx) (addr : Nat) :
    ctxWF (isl_id_free ctx addr) := by
  unfold isl_id_free
  cases hfind : ctx.id_table.find? (fun e => e.1 == addr) with
  | none => exact hWF
  | some e =>
    have hmem : e ∈ ctx.id_table := List.mem_of_find?_eq_some hfind
    have haddr : e.1 = addr := by
      have := List.find?_some hfind
      simpa using this
    by_cases hr : e.2.ref > 1
    · simp only [if_pos hr]
      refine ctxWF_entrywise hWF _ ?_ ?_ ?_ ?_ ?_
      · intro f
        by_cases hf : f.1 = addr <;> simp [hf]
      · intro f
        by_cases hf : f.1 = addr <;> simp [hf]
      · intro f
        by_cases hf : f.1 = addr <;> simp [hf]
      · intro f
        by_cases hf : f.1 = addr <;> simp [hf]
      · intro f hfm
        by_cases hf : f.1 = addr
        · simp only [if_pos hf]
          have hfe : f.2 = e.2 := by
            have : f = (addr, f.2) := by
              rw [← hf]
            rw [this] at hfm
            have : e = (addr, e.2) := by
              rw [← haddr]
            rw [this] at hmem
            exact mem_unique_of_nodup hWF.1 hfm hmem
          rw [hfe]
          omega
        · simp only [if_neg hf]
          exact hWF.2.2.2.1 f hfm
    · simp only [if_neg hr]
      exact ctxWF_filter hWF _

theorem isl_id_alloc_WF {ctx : isl_ctx} {n : Option (List Nat)} {u : Nat}
    {b : Bool} {r : Option Nat} {ctx2 : isl_ctx} (hWF : ctxWF ctx)
    (h : isl_id_alloc ctx n u b = some (r, ctx2)) : ctxWF ctx2 := by
  simp only [isl_id_alloc] at h
  cases hfind : tableFind ctx.id_table (idKeyHash n u) ⟨n, u⟩ with
  | none =>
    rw [hfind] at h
    simp at h
  | some o =>
    rw [hfind] at h
    cases o with
    | some e =>
      simp only [Option.some.injEq, Prod.mk.injEq] at h
      rw [← h.2]
      exact ctxWF_bump hWF e.1
    | none =>
      cases b with
      | true =>
        rw [if_pos rfl] at h
        simp only [Option.some.injEq, Prod.mk.injEq] at h
        rw [← h.2]
        exact ctxWF_insert hWF hfind
      | false =>
        rw [if_neg (by simp)] at h
        simp only [Option.some.injEq, Prod.mk.injEq] at h
        rw [← h.2]
        exact hWF

/-! ### Interning behaviour -/

theorem isl_id_alloc_hit {ctx : isl_ctx} {n : Option (List Nat)} {u : Nat}
    {a : Nat} {id : isl_id} (b : Bool)
    (hfind : tableFind ctx.id_table (idKeyHash n u) ⟨n, u⟩ = some (some (a, id))) :
    isl_id_alloc ctx n u b = some (some a,
      { ctx with id_table := bumpRef ctx.id_table a }) := by
  simp only [isl_id_alloc]
  rw [hfind]

theorem isl_id_alloc_success_mem {ctx : isl_ctx} {n : Option (List Nat)}
    {u : Nat} {b : Bool} {a : Nat} {ctx2 : isl_ctx}
    (h : isl_id_alloc ctx n u b = some (some a, ctx2)) :
    ∃ id, (a, id) ∈ ctx2.id_table ∧ id.name = n ∧ id.user = u := by
  simp only [isl_id_alloc] at h
  cases hfind : tableFind ctx.id_table (idKeyHash n u) ⟨n, u⟩ with
  | none => rw [hfind] at h; simp at h
  | some o =>
    rw [hfind] at h
    cases o with
    | some e =>
      simp only [Option.some.injEq, Prod.mk.injEq] at h
      obtain ⟨ha, hctx⟩ := h
      subst ha
      rcases tableFind_hit hfind with ⟨hmem, _, htrue⟩
      rcases isl_id_has_name_and_user_true_key htrue with ⟨hn2, hu2⟩
      refine ⟨{ e.2 with ref := e.2.ref + 1 }, ?_, hn2, hu2⟩
      rw [← hctx]
      show _ ∈ bumpRef ctx.id_table e.1
      refine List.mem_map.mpr ⟨e, hmem, ?_⟩
      rw [if_pos rfl]
    | none =>
      cases b with
      | true =>
        rw [if_pos rfl] at h
        simp only [Option.some.injEq, Prod.mk.injEq] at h
        obtain ⟨ha, hctx⟩ := h
        subst ha
        refine ⟨id_alloc n u, ?_, rfl, rfl⟩
        rw [← hctx]
        show _ ∈ ctx.id_table ++ [(ctx.next, id_alloc n u)]
        simp
      | false =>
        rw [if_neg (by simp)] at h
        simp at h
  

theorem isl_id_alloc_success_lt {ctx : isl_ctx} {n : Option (List Nat)}
    {u : Nat} {b : Bool} {a : Nat} {ctx2 : isl_ctx} (hWF : ctxWF ctx)
    (h : isl_id_alloc ctx n u b = some (some a, ctx2)) :
    a < ctx2.next ∧ ctx.next ≤ ctx2.next := by
  simp only [isl_id_alloc] at h
  cases hfind : tableFind ctx.id_table (idKeyHash n u) ⟨n, u⟩ with
  | none => rw [hfind] at h; simp at h
  | some o =>
    rw [hfind] at h
    cases o with
    | some e =>
      simp only [Option.some.injEq, Prod.mk.injEq] at h
      have ha : e.1 = a := h.1
      rcases tableFind_hit hfind with ⟨hmem, _, _⟩
      have := hWF.2.1 e hmem
      rw [← h.2]
      constructor
      · show a < ctx.next
        omega
      · exact le_refl _
    | none =>
      cases b with
      | true =>
        rw [if_pos rfl] at h
        simp only [Option.some.injEq, Prod.mk.injEq] at h
        have ha : ctx.next = a := h.1
        rw [← h.2]
        constructor
        · show a < ctx.next + 1
          omega
        · show ctx.next ≤ ctx.next + 1
          omega
      | false =>
        rw [if_neg (by simp)] at h
        simp at h

theorem intern_twice {ctx : isl_ctx} {n : Option (List Nat)} {u : Nat}
    {a : Nat} {ctx1 : isl_ctx} (b : Bool) (hWF : ctxWF ctx)
    (h1 : isl_id_alloc ctx n u true = some (some a, ctx1)) :
    ∃ ctx2, isl_id_alloc ctx1 n u b = some (some a, ctx2)
      ∧ refOf ctx2 a = refOf ctx1 a + 1 := by
  have hfind2 : ∃ id2, tableFind ctx1.id_table (idKeyHash n u) ⟨n, u⟩
      = some (some (a, id2)) := by
    simp only [isl_id_alloc] at h1
    cases hfind : tableFind ctx.id_table (idKeyHash n u) ⟨n, u⟩ with
    | none => rw [hfind] at h1; simp at h1
    | some o =>
      rw [hfind] at h1
      cases o with
      | some e =>
        simp only [Option.some.injEq, Prod.mk.injEq] at h1
        obtain ⟨ha, hctx⟩ := h1
        subst ha
        refine ⟨{ e.2 with ref := e.2.ref + 1 }, ?_⟩
        rw [← hctx]
        show tableFind (bumpRef ctx.id_table e.1) _ _ = _
        rw [tableFind_bumpRef, hfind]
        simp
      | none =>
        rw [if_pos True.intro] at h1
        simp only [Option.some.injEq, Prod.mk.injEq] at h1
        obtain ⟨ha, hctx⟩ := h1
        subst ha
        refine ⟨id_alloc n u, ?_⟩
        rw [← hctx]
        show tableFind (ctx.id_table ++ [(ctx.next, id_alloc n u)]) _ _ = _
        exact tableFind_append_hit hfind (ctx.next, id_alloc n u) rfl
          (isl_id_has_name_and_user_self (id_alloc n u))
  rcases hfind2 with ⟨id2, hf2⟩
  refine ⟨_, isl_id_alloc_hit b hf2, ?_⟩
  exact refOf_bump ctx1 a ⟨id2, (tableFind_hit hf2).1⟩

theorem intern_distinct {ctx : isl_ctx} {n n2 : Option (List Nat)}
    {u u2 : Nat} {b1 b2 : Bool} {a1 a2 : Nat} {ctx1 ctx2 : isl_ctx}
    (hWF : ctxWF ctx) (hkey : ¬(n = n2 ∧ u = u2))
    (h1 : isl_id_alloc ctx n u b1 = some (some a1, ctx1))
    (h2 : isl_id_alloc ctx1 n2 u2 b2 = some (some a2, ctx2)) : a1 ≠ a2 := by
  have hWF1 : ctxWF ctx1 := isl_id_alloc_WF hWF h1
  rcases isl_id_alloc_success_mem h1 with ⟨id1, hmem1, hname1, huser1⟩
  intro heq
  subst heq
  simp only [isl_id_alloc] at h2
  cases hfind : tableFind ctx1.id_table (idKeyHash n2 u2) ⟨n2, u2⟩ with
  | none => rw [hfind] at h2; simp at h2
  | some o =>
    rw [hfind] at h2
    cases o with
    | some e =>
      simp only [Option.some.injEq, Prod.mk.injEq] at h2
      obtain ⟨ha, _⟩ := h2
      rcases tableFind_hit hfind with ⟨hmem2, _, htrue⟩
      rcases isl_id_has_name_and_user_true_key htrue with ⟨hn2, hu2⟩
      have he : e = (a1, e.2) := by
        rw [← ha]
      rw [he] at hmem2
      have : e.2 = id1 := mem_unique_of_nodup hWF1.1 hmem2 hmem1
      apply hkey
      constructor
      · rw [← hname1, ← this, hn2]
      · rw [← huser1, ← this, hu2]
    | none =>
      cases b2 with
      | true =>
        rw [if_pos rfl] at h2
        simp only [Option.some.injEq, Prod.mk.injEq] at h2
        obtain ⟨ha, _⟩ := h2
        have hlt := hWF1.2.1 (a1, id1) hmem1
        omega
      | false =>
        rw [if_neg (by simp)] at h2
        simp at h2

theorem isl_id_free_last {ctx : isl_ctx} {a : Nat} {id : isl_id}
    (hnd : (ctx.id_table.map Prod.fst).Nodup)
    (hmem : (a, id) ∈ ctx.id_table) (hr : id.ref = 1) :
    isl_id_free ctx a =
      { ctx with id_table := ctx.id_table.filter (fun e2 => e2.1 != a) } := by
  unfold isl_id_free
  rw [find?_of_mem_nodup hnd hmem]
  simp [hr]

theorem intern_after_free {ctx : isl_ctx} {a : Nat} {id : isl_id} {b : Bool}
    {a2 : Nat} {ctx2 : isl_ctx} (hWF : ctxWF ctx)
    (hmem : (a, id) ∈ ctx.id_table) (hr : id.ref = 1)
    (h2 : isl_id_alloc (isl_id_free ctx a) id.name id.user b
      = some (some a2, ctx2)) :
    a2 ≠ a := by
  rw [isl_id_free_last hWF.1 hmem hr] at h2
  simp only [isl_id_alloc] at h2
  cases hfind : tableFind (ctx.id_table.filter (fun e2 => e2.1 != a))
      (idKeyHash id.name id.user) ⟨id.name, id.user⟩ with
  | none =>
    rw [hfind] at h2
    simp at h2
  | some o =>
    rw [hfind] at h2
    cases o with
    | some e =>
      simp only [Option.some.injEq, Prod.mk.injEq] at h2
      obtain ⟨ha, _⟩ := h2
      rcases tableFind_hit hfind with ⟨hmem2, _, _⟩
      have hne : e.1 ≠ a := by
        have := (List.mem_filter.mp hmem2).2
        simpa using this
      omega
    | none =>
      cases b with
      | true =>
        rw [if_pos rfl] at h2
        simp only [Option.some.injEq, Prod.mk.injEq] at h2
        obtain ⟨ha, _⟩ := h2
        have hlt := hWF.2.1 (a, id) hmem
        show a2 ≠ a
        omega
      | false =>
        rw [if_neg (by simp)] at h2
        simp at h2

/-! ### Claims C8, C9, C10: the identifier registry -/

/-- C8: within one context, interning is idempotent and injective on keys:
well-formedness (which includes "at most one live identifier per
`(name, user)` class") is preserved by `isl_id_alloc` and `isl_id_free`;
interning the same key twice returns the same instance with its refcount
incremented; interning different keys returns distinct instances; and after
the last `isl_id_free` removes an identifier, a later intern of the same key
yields an instance distinct from the dead one (here: a fresh address). -/
theorem C8_interning_invariants :
    (∀ (ctx : isl_ctx) (n : Option (List Nat)) (u : Nat) (b : Bool)
        (r : Option Nat) (ctx2 : isl_ctx), ctxWF ctx →
      isl_id_alloc ctx n u b = some (r, ctx2) → ctxWF ctx2)
    ∧ (∀ (ctx : isl_ctx) (a : Nat), ctxWF ctx → ctxWF (isl_id_free ctx a))
    ∧ (∀ (ctx : isl_ctx) (n : Option (List Nat)) (u a : Nat) (ctx1 : isl_ctx)
        (b : Bool), ctxWF ctx →
      isl_id_alloc ctx n u true = some (some a, ctx1) →
      ∃ ctx2, isl_id_alloc ctx1 n u b = some (some a, ctx2)
        ∧ refOf ctx2 a = refOf ctx1 a + 1)
    ∧ (∀ (ctx : isl_ctx) (n n2 : Option (List Nat)) (u u2 : Nat) (b1 b2 : Bool)
        (a1 a2 : Nat) (ctx1 ctx2 : isl_ctx), ctxWF ctx → ¬(n = n2 ∧ u = u2) →
      isl_id_alloc ctx n u b1 = some (some a1, ctx1) →
      isl_id_alloc ctx1 n2 u2 b2 = some (some a2, ctx2) → a1 ≠ a2)
    ∧ (∀ (ctx : isl_ctx) (a : Nat) (id : isl_id) (b : Bool) (a2 : Nat)
        (ctx2 : isl_ctx), ctxWF ctx → (a, id) ∈ ctx.id_table → id.ref = 1 →
      isl_id_alloc (isl_id_free ctx a) id.name id.user b
        = some (some a2, ctx2) → a2 ≠ a) :=
  ⟨fun _ _ _ _ _ _ hWF h => isl_id_alloc_WF hWF h,
   fun _ a hWF => isl_id_free_WF hWF a,
   fun _ _ _ _ _ b hWF h1 => intern_twice b hWF h1,
   fun _ _ _ _ _ _ _ _ _ _ _ hWF hkey h1 h2 => intern_distinct hWF hkey h1 h2,
   fun _ _ _ _ _ _ hWF hmem hr h2 => intern_after_free hWF hmem hr h2⟩

/-- C8 witness: concrete runs of the five conjuncts on small contexts. -/
theorem C8_interning_invariants_witness :
    ctxWF ctxA
    ∧ ctxWF (isl_id_free ctxA 0)
    ∧ (∃ ctx2, isl_id_alloc ctxA nameX 0 true = some (some 0, ctx2)
        ∧ refOf ctx2 0 = refOf ctxA 0 + 1)
    ∧ (0 : Nat) ≠ 1
    ∧ (1 : Nat) ≠ 0 :=
  ⟨C8_interning_invariants.1 ctx0 nameX 0 true (some 0) ctxA (by decide)
     (by decide),
   C8_interning_invariants.2.1 ctxA 0 (by decide),
   C8_interning_invariants.2.2.1 ctx0 nameX 0 0 ctxA true (by decide)
     (by decide),
   C8_interning_invariants.2.2.2.1 ctx0 nameX nameY 0 0 true true 0 1 ctxA ctxB
     (by decide) (by decide) (by decide) (by decide),
   C8_interning_invariants.2.2.2.2 ctxA 0 (id_alloc nameX 0) true 1
     { id_table := [(1, id_alloc nameX 0)], next := 2 } (by decide) (by decide)
     (by decide) (by decide)⟩

/-- C9: when the key is absent and allocation fails, `isl_id_alloc` returns
the failure result and the interning table is left unchanged (the returned
context is the input context), so a later lookup of the key still misses. -/
theorem C9_alloc_failure_leaves_table (ctx : isl_ctx)
    (n : Option (List Nat)) (u : Nat)
    (hmiss : tableFind ctx.id_table (idKeyHash n u) ⟨n, u⟩ = some none) :
    isl_id_alloc ctx n u false = some (none, ctx) := by
  simp only [isl_id_alloc]
  rw [hmiss]
  simp

/-- C9 witness: failing allocation of `("x", 0)` in the empty context. -/
theorem C9_alloc_failure_leaves_table_witness :
    isl_id_alloc ctx0 nameX 0 false = some (none, ctx0) :=
  C9_alloc_failure_leaves_table ctx0 nameX 0 (by decide)

/-- C10: with equal user payloads, the interning equality predicate is total
only when both identifiers have a name or both lack one; when exactly one
name is absent it falls through to `strcmp` with a null pointer, whose
outcome is undefined (`none` in the model), instead of answering "not
equal". -/
theorem C10_equality_predicate_partial (id : isl_id) (nu : isl_name_and_user)
    (huser : id.user = nu.user) :
    (id.name.isSome ≠ nu.name.isSome → isl_id_has_name_and_user id nu = none)
    ∧ (id.name.isSome = nu.name.isSome →
        isl_id_has_name_and_user id nu ≠ none) := by
  unfold isl_id_has_name_and_user
  rw [if_neg (by simp [huser])]
  cases hn : id.name <;> cases hm : nu.name <;> simp

/-- C10 witness: a nameless identifier with user `5` probed against the key
`("a", 5)` hits the undefined `strcmp`. -/
theorem C10_equality_predicate_partial_witness :
    ((Option.isSome (none : Option (List Nat))
        ≠ Option.isSome (some [97] : Option (List Nat))) →
      isl_id_has_name_and_user
        { name := none, user := 5, ref := 1, hash := 0 }
        { name := some [97], user := 5 } = none)
    ∧ ((Option.isSome (none : Option (List Nat))
        = Option.isSome (some [97] : Option (List Nat))) →
      isl_id_has_name_and_user
        { name := none, user := 5, ref := 1, hash := 0 }
        { name := some [97], user := 5 } ≠ none) :=
  C10_equality_predicate_partial
    { name := none, user := 5, ref := 1, hash := 0 }
    { name := some [97], user := 5 } rfl
